import Mathlib

/-!
The program ifavicon: a favicon fingerprinting pipeline.

A shallow embedding of `ifavicon.go` (fetch → canonical base64 → MurmurHash3 →
report) together with theorems about the canonical encoder, the fingerprint
rendering, the request URL, the result presenter and the exit codes.

Go `string` and `[]byte` values are both modelled as `List Byte`, a list of
octets, since the source only ever handles them byte-wise.
-/

namespace Ifavicon

/-! ## Bytes and string literals -/

/-- One octet, the element type of Go's `string` and `[]byte`. -/
abbrev Byte := Fin 256

/-- The octet of an ASCII character. -/
def byteOfChar (c : Char) : Byte := Fin.ofNat c.toNat

/-- The bytes of a string literal of the source (all of them are ASCII). -/
def str (s : String) : List Byte := s.toList.map byteOfChar

/-- The newline byte, written `'\n'` in the source. -/
def nl : Byte := byteOfChar '\n'

/-! ## `encoding/base64`: `StdEncoding.EncodeToString` -/

/-- The alphabet of `base64.StdEncoding`. -/
def encodeStd : List Byte :=
  str "ABCDEFGHIJKLMNOPQRSTUVWXYZabcdefghijklmnopqrstuvwxyz0123456789+/"

/-- The padding character of `base64.StdEncoding`. -/
def padChar : Byte := byteOfChar '='

/-- The table lookup `enc.encode[i]`. -/
def encodeByte (i : Nat) : Byte := encodeStd.getD i 0

/-- The function `base64.StdEncoding.EncodeToString`: three input bytes give
four alphabet characters; a remainder of one or two bytes gives two or three
characters and `=` padding up to four. -/
def encodeToString : List Byte → List Byte
  | a :: b :: c :: rest =>
      let val := a.val <<< 16 ||| b.val <<< 8 ||| c.val
      encodeByte (val >>> 18 &&& 0x3F) :: encodeByte (val >>> 12 &&& 0x3F) ::
        encodeByte (val >>> 6 &&& 0x3F) :: encodeByte (val &&& 0x3F) ::
          encodeToString rest
  | [a, b] =>
      let val := a.val <<< 16 ||| b.val <<< 8
      [encodeByte (val >>> 18 &&& 0x3F), encodeByte (val >>> 12 &&& 0x3F),
        encodeByte (val >>> 6 &&& 0x3F), padChar]
  | [a] =>
      let val := a.val <<< 16
      [encodeByte (val >>> 18 &&& 0x3F), encodeByte (val >>> 12 &&& 0x3F),
        padChar, padChar]
  | [] => []

/-! ## `standardBase64` -/

/-- The loop of `standardBase64`: `bckd` is what is left of the encoded
string from index `i` on, `buffer` what has been written so far. -/
def wrapLoop : List Byte → Nat → List Byte → List Byte
  | [], _, buffer => buffer
  | ch :: rest, i, buffer =>
      let buffer := buffer ++ [ch]
      let buffer := if (i + 1) % 76 = 0 then buffer ++ [nl] else buffer
      wrapLoop rest (i + 1) buffer

/-- The function `standardBase64` of the source. -/
def standardBase64 (braw : List Byte) : List Byte :=
  let bckd := encodeToString braw
  let buffer := wrapLoop bckd 0 []
  buffer ++ [nl]

/-! ## `github.com/twmb/murmur3`: `New32`, `Write`, `Sum32`

The package is an external dependency of the program; this is the published
MurmurHash3 x86_32 algorithm with which `New32` (seed 0) computes `Sum32`
of everything written. Every `uint32` operation is taken modulo `2 ^ 32`. -/

/-- The constant `c1_32` of the hash. -/
def c1_32 : Nat := 0xcc9e2d51

/-- The constant `c2_32` of the hash. -/
def c2_32 : Nat := 0x1b873593

/-- The function `bits.RotateLeft32` on a value below `2 ^ 32`. -/
def rotl32 (x r : Nat) : Nat := ((x <<< r) ||| (x >>> (32 - r))) % 2 ^ 32

/-- The scrambling of one block: `k1 *= c1; k1 = rotl(k1, 15); k1 *= c2`. -/
def mixK1 (k1 : Nat) : Nat := (rotl32 ((k1 * c1_32) % 2 ^ 32) 15 * c2_32) % 2 ^ 32

/-- The body loop over the whole 4-byte little-endian blocks; returns the
running hash and the tail of fewer than four bytes. -/
def bmix32 : List Byte → Nat → Nat × List Byte
  | a :: b :: c :: d :: rest, h1 =>
      let k1 := a.val ||| b.val <<< 8 ||| c.val <<< 16 ||| d.val <<< 24
      let h1 := h1 ^^^ mixK1 k1
      let h1 := rotl32 h1 13
      let h1 := (h1 * 4 + h1 + 0xe6546b64) % 2 ^ 32
      bmix32 rest h1
  | tail, h1 => (h1, tail)

/-- The tail switch of `Sum32` with its fall-through cases. -/
def tailK1 : List Byte → Nat → Nat
  | [t0, t1, t2], h1 => h1 ^^^ mixK1 ((t2.val <<< 16) ^^^ (t1.val <<< 8) ^^^ t0.val)
  | [t0, t1], h1 => h1 ^^^ mixK1 ((t1.val <<< 8) ^^^ t0.val)
  | [t0], h1 => h1 ^^^ mixK1 t0.val
  | _, h1 => h1

/-- The finalizer: `h ^= h >> 16; h *= 0x85ebca6b; h ^= h >> 13;
h *= 0xc2b2ae35; h ^= h >> 16`. -/
def fmix32 (h : Nat) : Nat :=
  let h := h ^^^ (h >>> 16)
  let h := (h * 0x85ebca6b) % 2 ^ 32
  let h := h ^^^ (h >>> 13)
  let h := (h * 0xc2b2ae35) % 2 ^ 32
  (h ^^^ (h >>> 16)) % 2 ^ 32

/-- The value `Sum32()` of a fresh `New32()` digest after `Write(raw)`. -/
def sum32 (raw : List Byte) : Nat :=
  let r := bmix32 raw 0
  let h1 := tailK1 r.2 r.1
  let h1 := h1 ^^^ (raw.length % 2 ^ 32)
  fmix32 h1

/-! ## `fmt.Sprintf("%d", int32(x))` -/

/-- The conversion `int32(x)` of a `uint32`: the same 32 bits read as a
two's-complement number. -/
def int32 (x : Nat) : Int := (((x + 2 ^ 31) % 2 ^ 32 : Nat) : Int) - 2 ^ 31

/-- The byte `'0' + d`. -/
def digitByte (d : Nat) : Byte := Fin.ofNat (48 + d)

/-- The base-10 loop of `fmt.fmtInteger`, filling the buffer from the right:
`for u >= 10 { next := u / 10; buf[i] = '0' + u - next*10; u = next }` and
then the leading digit. The first argument bounds the number of rounds and
is never exhausted when it starts at `u`. -/
def fmtDecimal : Nat → Nat → List Byte → List Byte
  | 0, u, buf => digitByte u :: buf
  | fuel + 1, u, buf =>
      if u ≥ 10 then
        let next := u / 10
        fmtDecimal fuel next (digitByte (u - next * 10) :: buf)
      else digitByte u :: buf

/-- The rendering `fmt.Sprintf("%d", v)` of a signed integer: the digits of
its magnitude, with `-` in front when it is negative. -/
def sprintfD (v : Int) : List Byte :=
  let negative := v < 0
  let u := v.natAbs
  let buf := fmtDecimal u u []
  if negative then byteOfChar '-' :: buf else buf

/-- The function `mmh3Hash32` of the source. -/
def mmh3Hash32 (raw : List Byte) : List Byte :=
  sprintfD (int32 (sum32 raw))

/-! ## Configuration and the result presenter -/

/-- The struct `Config` of the source. -/
structure Config where
  URL : List Byte
  File : List Byte
  Download : Bool
  Silent : Bool
  Proxy : List Byte
  Fofa : Bool
  Shodan : Bool

/-- The function `strings.HasSuffix`:
`len(s) >= len(suffix) && s[len(s)-len(suffix):] == suffix`. -/
def hasSuffix (s suffix : List Byte) : Bool :=
  decide (s.length ≥ suffix.length) && (s.drop (s.length - suffix.length) == suffix)

/-- The argument `base64.StdEncoding.EncodeToString([]byte("icon_hash="+hash))`
of the two `Printf` calls that write the fofa link. -/
def qbase64 (hash : List Byte) : List Byte :=
  encodeToString (str "icon_hash=" ++ hash)

/-- The function `output` of the source: the text its `Printf` calls write
to standard output, and the exit code when it ends the process itself
(every branch but the last calls `os.Exit(0)`). -/
def output (hash : List Byte) (config : Config) : List Byte × Option Nat :=
  if config.Silent then
    if config.Fofa then
      (str "icon_hash=" ++ hash ++ str "\n", some 0)
    else if config.Shodan then
      (str "http.favicon.hash:" ++ hash ++ str "\n", some 0)
    else
      (hash ++ str "\n", some 0)
  else if config.Fofa then
    (str "FOFA:\n" ++
      (str "  icon_hash=\"" ++ hash ++ str "\"\n") ++
      (str "  link: https://fofa.info/result?qbase64=" ++
        qbase64 hash ++ str "\n"), some 0)
  else if config.Shodan then
    (str "Shodan:\n" ++
      (str "  http.favicon.hash:" ++ hash ++ str "\n") ++
      (str "  link: https://www.shodan.io/search?query=http.favicon.hash%3A" ++
        hash ++ str "\n"), some 0)
  else
    (str "FOFA:\n" ++
      (str "  icon_hash=" ++ hash ++ str "\n") ++
      (str "  link: https://fofa.info/result?qbase64=" ++
        qbase64 hash ++ str "\n") ++
      str "Shodan:\n" ++
      (str "  http.favicon.hash:" ++ hash ++ str "\n") ++
      (str "  link: https://www.shodan.io/search?query=http.favicon.hash%3A" ++
        hash ++ str "\n"), none)

/-! ## The content source and `main` -/

/-- The operations of the outside world that the program calls; an error is
the message `err.Error()`. -/
structure World where
  /-- The text `flag.Usage()` writes. -/
  usage : List Byte
  /-- The error of `proxy.SOCKS5("tcp", proxyURL, nil, proxy.Direct)`, if any. -/
  socks5 : List Byte → Option (List Byte)
  /-- The error of `http.NewRequest("GET", requestURL, nil)`, if any. -/
  newRequest : List Byte → Option (List Byte)
  /-- The call `client.Do(req)` for a request URL and a proxy address: an
  error, or a response whose body `ioutil.ReadAll` reads or fails to read. -/
  clientDo : List Byte → List Byte → Except (List Byte) (Except (List Byte) (List Byte))
  /-- The calls `os.Open(path)` and `ioutil.ReadAll(fi)`. -/
  readFile : List Byte → Except (List Byte) (List Byte)
  /-- The host `u.Host` of `url.Parse(rawURL)`, or its error. -/
  urlParse : List Byte → Except (List Byte) (List Byte)
  /-- The error of `ioutil.WriteFile(name, content, 0644)`, if any. -/
  writeFile : List Byte → List Byte → Option (List Byte)

/-- What `getContentFromURL` does: it ends the process itself when the proxy
cannot be set up (the line it writes to standard error is kept), and returns
an error or the body otherwise. -/
inductive Fetched where
  | fatal (line : List Byte)
  | result (r : Except (List Byte) (List Byte))

/-- The function `getContentFromURL` of the source. -/
def getContentFromURL (w : World) (requestURL proxyURL : List Byte) : Fetched :=
  match (if proxyURL ≠ [] then w.socks5 proxyURL else none) with
  | some err => .fatal (str "can't connect to the proxy: " ++ err ++ str "\n")
  | none =>
    match w.newRequest requestURL with
    | some err => .result (.error err)
    | none =>
      match w.clientDo requestURL proxyURL with
      | .error err => .result (.error err)
      | .ok (.error err) => .result (.error err)
      | .ok (.ok body) => .result (.ok body)

/-- The function `getContentFromFile` of the source. -/
def getContentFromFile (w : World) (path : List Byte) : Except (List Byte) (List Byte) :=
  w.readFile path

/-- One write of the program to its standard streams, by the statement that
makes it. -/
inductive Printed where
  /-- The call `flag.Usage()`. -/
  | usage (text : List Byte)
  /-- The four `fmt.Println` calls after it. -/
  | examples (text : List Byte)
  /-- The `fmt.Fprintln(os.Stderr, ...)` of a failed proxy setup. -/
  | proxyError (line : List Byte)
  /-- One of the `fmt.Printf("%s\n", err)` calls of `main`. -/
  | error (line : List Byte)
  /-- The `Printf` calls of `output`. -/
  | report (text : List Byte)
  deriving DecidableEq

/-- What one run of the program does. -/
structure Run where
  /-- The writes to the standard streams, in order. -/
  printed : List Printed
  /-- The URL passed to `getContentFromURL`, if it is called. -/
  requested : Option (List Byte)
  /-- The name and content of the file `ioutil.WriteFile` has written. -/
  saved : Option (List Byte × List Byte)
  /-- The code the process ends with. -/
  exitCode : Nat

/-- The text of the three example invocations. -/
def examplesText : List Byte :=
  str "Example:\n" ++ str "  ifavicon -url https://example.com/favicon.ico\n" ++
    str "  ifavicon -download https://example.com/favicon.ico\n" ++
    str "  ifavicon -file example.com.favicon.ico\n"

/-- The tail of both modes of `main`: `hash := mmh3Hash32(standardBase64(content));
output(hash, config); os.Exit(0)`. -/
def report (config : Config) (content : List Byte) (requested : Option (List Byte))
    (saved : Option (List Byte × List Byte)) : Run :=
  let hash := mmh3Hash32 (standardBase64 content)
  let o := output hash config
  { printed := [.report o.1], requested := requested, saved := saved,
    exitCode := o.2.getD 0 }

/-- The rewriting of `config.URL` at the start of URL mode:
`if !strings.HasSuffix(config.URL, "favicon.ico") { config.URL = config.URL + "/favicon.ico" }`. -/
def requestURL (url : List Byte) : List Byte :=
  if !hasSuffix url (str "favicon.ico") then url ++ str "/favicon.ico" else url

/-- The function `main` of the source, after `flag.Parse()` has filled in
`config`. -/
def main (w : World) (config : Config) : Run :=
  if config.URL = [] ∧ config.File = [] then
    { printed := [.usage w.usage, .examples examplesText], requested := none, saved := none,
      exitCode := 0 }
  else if config.URL ≠ [] then
    let url := requestURL config.URL
    match getContentFromURL w url config.Proxy with
    | .fatal line =>
        { printed := [.proxyError line], requested := some url, saved := none, exitCode := 1 }
    | .result (.error err) =>
        { printed := [.error (err ++ str "\n")], requested := some url, saved := none,
          exitCode := 1 }
    | .result (.ok content) =>
        if config.Download then
          match w.urlParse url with
          | .error err =>
              { printed := [.error (err ++ str "\n")], requested := some url, saved := none,
                exitCode := 1 }
          | .ok host =>
              match w.writeFile (host ++ str ".favicon.ico") content with
              | some err =>
                  { printed := [.error (err ++ str "\n")], requested := some url,
                    saved := none, exitCode := 1 }
              | none =>
                  report config content (some url) (some (host ++ str ".favicon.ico", content))
        else report config content (some url) none
  else if config.File ≠ [] then
    match getContentFromFile w config.File with
    | .error err =>
        { printed := [.error (err ++ str "\n")], requested := none, saved := none,
          exitCode := 1 }
    | .ok content => report config content none none
  else
    { printed := [], requested := none, saved := none, exitCode := 0 }

/-! ## Statements of the specification -/

/-- The wrapping in the words of the specification: every character of the
encoded string `e` unchanged, a newline after each character whose 1-indexed
position is a multiple of 76, and one final newline. -/
def wrapSpec (e : List Byte) : List Byte :=
  (e.enum.flatMap fun p => if (p.1 + 1) % 76 = 0 then [p.2, nl] else [p.2]) ++ [nl]

/-- The base-10 string of an integer. -/
def decimal (v : Int) : List Byte := str (toString v)

/-- A decimal digit, `0` to `9`. -/
def isDigit (b : Byte) : Bool := decide (48 ≤ b.val) && decide (b.val ≤ 57)

/-- The shape of a decimal rendering of a signed integer: an optional leading
`-` followed by one or more decimal digits. -/
def isSignedDecimal : List Byte → Bool
  | [] => false
  | c :: t =>
      if c = byteOfChar '-' then !t.isEmpty && t.all isDigit else (c :: t).all isDigit

/-- The fetch of URL mode fails: `getContentFromURL` does not return a body. -/
def fetchFails (w : World) (config : Config) : Bool :=
  match getContentFromURL w (requestURL config.URL) config.Proxy with
  | .result (.ok _) => false
  | _ => true

/-- With download requested, the parse of the request URL or the write of the
fetched body to `<host>.favicon.ico` fails. -/
def downloadFails (w : World) (config : Config) : Bool :=
  config.Download &&
    match getContentFromURL w (requestURL config.URL) config.Proxy with
    | .result (.ok content) =>
        (match w.urlParse (requestURL config.URL) with
          | .error _ => true
          | .ok host => (w.writeFile (host ++ str ".favicon.ico") content).isSome)
    | _ => false

/-- The read of the file of file mode fails. -/
def readFails (w : World) (config : Config) : Bool :=
  match getContentFromFile w config.File with
  | .error _ => true
  | .ok _ => false

/-- The message `err` is the error of the operation at which the run stops:
the fetch, the URL parse or file write of a download, or the file read. -/
def stopsWith (w : World) (config : Config) (err : List Byte) : Prop :=
  (config.URL ≠ [] ∧
    (getContentFromURL w (requestURL config.URL) config.Proxy = .result (.error err) ∨
      ∃ content, getContentFromURL w (requestURL config.URL) config.Proxy =
          .result (.ok content) ∧ config.Download = true ∧
        (w.urlParse (requestURL config.URL) = .error err ∨
          ∃ host, w.urlParse (requestURL config.URL) = .ok host ∧
            w.writeFile (host ++ str ".favicon.ico") content = some err))) ∨
  (config.URL = [] ∧ config.File ≠ [] ∧ getContentFromFile w config.File = .error err)

/-- A world in which every operation succeeds and every read gives `body`. -/
def calmWorld (body : List Byte) : World where
  usage := str "Usage of ifavicon:\n"
  socks5 := fun _ => none
  newRequest := fun _ => none
  clientDo := fun _ _ => .ok (.ok body)
  readFile := fun _ => .ok body
  urlParse := fun _ => .ok (str "example.com")
  writeFile := fun _ _ => none

/-- A configuration of URL mode with every flag off. -/
def urlConfig (url : List Byte) : Config where
  URL := url
  File := []
  Download := false
  Silent := false
  Proxy := []
  Fofa := false
  Shodan := false

/-! ## Theorems: the result presenter -/

set_option maxRecDepth 100000

theorem str_nl : str "\n" = [nl] := by decide

/-- C5: in silent mode `output` writes exactly one line and ends the process
with code 0: `icon_hash=H` when the fofa flag is set, `http.favicon.hash:H`
when only the shodan flag is set, and the bare `H` when neither is. -/
theorem output_silent (H : List Byte) (config : Config) (h : config.Silent = true) :
    output H config =
      (if config.Fofa = true then str "icon_hash=" ++ H ++ [nl]
        else if config.Shodan = true then str "http.favicon.hash:" ++ H ++ [nl]
        else H ++ [nl], some 0) := by
  unfold output
  rw [if_pos h, str_nl]
  by_cases hf : config.Fofa = true
  · simp [hf]
  · by_cases hs : config.Shodan = true <;> simp [hf, hs]

/-- The fingerprint `708578229` in silent fofa mode is written as the single
line `icon_hash=708578229`. -/
theorem output_silent_witness :
    output (str "708578229")
        { URL := [], File := str "favicon.ico", Download := false, Silent := true,
          Proxy := [], Fofa := true, Shodan := false } =
      (str "icon_hash=708578229\n", some 0) :=
  (output_silent (str "708578229")
    { URL := [], File := str "favicon.ico", Download := false, Silent := true,
      Proxy := [], Fofa := true, Shodan := false } rfl).trans (by decide)

/-- C7: with both the fofa and the shodan flag set, `output` writes what it
writes with only the fofa flag set, whatever the silent flag is. -/
theorem output_fofa_wins (H : List Byte) (config : Config) :
    output H { config with Fofa := true, Shodan := true } =
      output H { config with Fofa := true, Shodan := false } := by
  unfold output
  by_cases hs : config.Silent = true <;> simp [hs]

/-- C6 (the code at the failing input): for the fingerprint `708578229` the
default non-silent report has the line `  icon_hash=708578229`, where the
fofa-only block has `  icon_hash="708578229"`; the default report is therefore
not the fofa-only block followed by the shodan-only block. -/
theorem output_default_not_both_blocks :
    (output (str "708578229")
        { URL := [], File := str "favicon.ico", Download := false, Silent := false,
          Proxy := [], Fofa := false, Shodan := false }).1 =
      str "FOFA:\n  icon_hash=708578229\n  link: https://fofa.info/result?qbase64=aWNvbl9oYXNoPTcwODU3ODIyOQ==\nShodan:\n  http.favicon.hash:708578229\n  link: https://www.shodan.io/search?query=http.favicon.hash%3A708578229\n" ∧
    (output (str "708578229")
        { URL := [], File := str "favicon.ico", Download := false, Silent := false,
          Proxy := [], Fofa := true, Shodan := false }).1 =
      str "FOFA:\n  icon_hash=\"708578229\"\n  link: https://fofa.info/result?qbase64=aWNvbl9oYXNoPTcwODU3ODIyOQ==\n" ∧
    (output (str "708578229")
        { URL := [], File := str "favicon.ico", Download := false, Silent := false,
          Proxy := [], Fofa := false, Shodan := true }).1 =
      str "Shodan:\n  http.favicon.hash:708578229\n  link: https://www.shodan.io/search?query=http.favicon.hash%3A708578229\n" ∧
    (output (str "708578229")
        { URL := [], File := str "favicon.ico", Download := false, Silent := false,
          Proxy := [], Fofa := false, Shodan := false }).1 ≠
      (output (str "708578229")
        { URL := [], File := str "favicon.ico", Download := false, Silent := false,
          Proxy := [], Fofa := true, Shodan := false }).1 ++
      (output (str "708578229")
        { URL := [], File := str "favicon.ico", Download := false, Silent := false,
          Proxy := [], Fofa := false, Shodan := true }).1 := by
  decide

/-- For every fingerprint the default report is two bytes shorter than the
fofa-only block and the shodan-only block together: the two quotes around the
fingerprint are missing from it. -/
theorem output_default_length (H : List Byte) (config : Config)
    (hs : config.Silent = false) :
    (output H { config with Fofa := false, Shodan := false }).1.length + 2 =
      (output H { config with Fofa := true, Shodan := false }).1.length +
        (output H { config with Fofa := false, Shodan := true }).1.length := by
  simp only [output, hs, Bool.false_eq_true, if_false, if_true, List.length_append]
  have h1 : (str "  icon_hash=\"").length = (str "  icon_hash=").length + 1 := by decide
  have h2 : (str "\"\n").length = (str "\n").length + 1 := by decide
  omega

/-! ## Theorems: the request URL and the exit code -/

theorem hasSuffix_iff (s suffix : List Byte) : hasSuffix s suffix = true ↔ suffix <:+ s := by
  unfold hasSuffix
  constructor
  · intro h
    simp only [Bool.and_eq_true, decide_eq_true_eq, beq_iff_eq] at h
    rw [← h.2]
    exact List.drop_suffix _ _
  · rintro ⟨t, rfl⟩
    simp

theorem requestURL_eq (u : List Byte) :
    requestURL u = if str "favicon.ico" <:+ u then u else u ++ str "/favicon.ico" := by
  unfold requestURL
  by_cases h : str "favicon.ico" <:+ u
  · rw [if_pos h, (hasSuffix_iff u _).2 h]; rfl
  · rw [if_neg h]
    have : hasSuffix u (str "favicon.ico") = false := by
      rw [← Bool.not_eq_true, hasSuffix_iff]; exact h
    rw [this]; rfl

theorem requested_of_main (w : World) (config : Config) (h : config.URL ≠ []) :
    (main w config).requested = some (requestURL config.URL) := by
  unfold main report
  have h1 : ¬ (config.URL = [] ∧ config.File = []) := fun hh => h hh.1
  rw [if_neg h1, if_pos h]
  dsimp only
  repeat' split
  all_goals rfl

/-- C4: in URL mode with a non-empty URL `u`, the URL handed to the fetch is
`u` itself when `u` ends with `favicon.ico`, and `u` followed by
`/favicon.ico` otherwise. -/
theorem main_requested (w : World) (config : Config) (h : config.URL ≠ []) :
    (main w config).requested =
      some (if str "favicon.ico" <:+ config.URL then config.URL
        else config.URL ++ str "/favicon.ico") := by
  rw [requested_of_main w config h, requestURL_eq]

/-- The URL `http://example.com` is requested as `http://example.com/favicon.ico`. -/
theorem main_requested_witness :
    (main (calmWorld []) (urlConfig (str "http://example.com"))).requested =
      some (str "http://example.com/favicon.ico") :=
  (main_requested (calmWorld []) (urlConfig (str "http://example.com")) (by decide)).trans
    (by decide)

theorem main_requested_unchanged :
    (main (calmWorld []) (urlConfig (str "http://example.com/favicon.ico"))).requested =
      some (str "http://example.com/favicon.ico") := by
  decide

theorem output_exit (H : List Byte) (config : Config) : (output H config).2.getD 0 = 0 := by
  unfold output
  repeat' split
  all_goals rfl

/-- C8: the run ends with exit code 1 exactly when, in URL mode, the fetch or
(with download requested) the URL parse or file write fails, or when, in file
mode, the file read fails; then the only thing printed is the error of the
operation that failed (on standard error for a failed proxy setup) and no
report is written. In every other case the exit code is 0, also when both the
URL and the file are empty, where the usage text and the examples are printed. -/
theorem main_exit_code (w : World) (config : Config) :
    ((main w config).exitCode = 1 ↔
      (config.URL ≠ [] ∧ (fetchFails w config = true ∨ downloadFails w config = true)) ∨
      (config.URL = [] ∧ config.File ≠ [] ∧ readFails w config = true)) ∧
    ((main w config).exitCode = 1 →
      ((∃ err, (main w config).printed = [.error (err ++ [nl])] ∧ stopsWith w config err) ∨
        (∃ line, (main w config).printed = [.proxyError line] ∧ config.URL ≠ [] ∧
          getContentFromURL w (requestURL config.URL) config.Proxy = .fatal line)) ∧
      ∀ text, Printed.report text ∉ (main w config).printed) ∧
    ((main w config).exitCode ≠ 1 → (main w config).exitCode = 0) ∧
    (config.URL = [] ∧ config.File = [] →
      (main w config).exitCode = 0 ∧
        (main w config).printed = [.usage w.usage, .examples examplesText]) := by
  by_cases hU : config.URL = []
  · by_cases hF : config.File = []
    · simp [main, hU, hF]
    · cases hr : getContentFromFile w config.File <;>
        simp [main, report, hU, hF, readFails, stopsWith, hr, output_exit, str_nl]
  · cases hf : getContentFromURL w (requestURL config.URL) config.Proxy with
    | fatal line => simp [main, hU, hf, fetchFails, downloadFails, stopsWith]
    | result r =>
      cases r with
      | error e => simp [main, hU, hf, fetchFails, downloadFails, stopsWith, str_nl]
      | ok content =>
        cases hd : config.Download with
        | false =>
          simp [main, report, hU, hf, hd, fetchFails, downloadFails, stopsWith, output_exit]
        | true =>
          cases hp : w.urlParse (requestURL config.URL) with
          | error e =>
            simp [main, hU, hf, hd, hp, fetchFails, downloadFails, stopsWith, str_nl]
          | ok host =>
            cases hw : w.writeFile (host ++ str ".favicon.ico") content <;>
              simp [main, report, hU, hf, hd, hp, hw, fetchFails, downloadFails, stopsWith,
                output_exit, str_nl]

/-! ## Theorems: the canonical encoder -/

theorem wrapLoop_buffer (l : List Byte) (i : Nat) (buffer : List Byte) :
    wrapLoop l i buffer = buffer ++ wrapLoop l i [] := by
  induction l generalizing i buffer with
  | nil => simp [wrapLoop]
  | cons ch rest ih =>
    simp only [wrapLoop]
    rw [ih (i + 1) (if (i + 1) % 76 = 0 then buffer ++ [ch] ++ [nl] else buffer ++ [ch]),
      ih (i + 1) (if (i + 1) % 76 = 0 then [] ++ [ch] ++ [nl] else [] ++ [ch])]
    split <;> simp

theorem wrapLoop_cons (ch : Byte) (rest : List Byte) (i : Nat) :
    wrapLoop (ch :: rest) i [] =
      (if (i + 1) % 76 = 0 then [ch, nl] else [ch]) ++ wrapLoop rest (i + 1) [] := by
  simp only [wrapLoop]
  rw [wrapLoop_buffer]
  split <;> simp

theorem wrapLoop_enumFrom (l : List Byte) (i : Nat) :
    wrapLoop l i [] =
      (l.enumFrom i).flatMap fun p => if (p.1 + 1) % 76 = 0 then [p.2, nl] else [p.2] := by
  induction l generalizing i with
  | nil => simp [wrapLoop]
  | cons ch rest ih =>
    rw [wrapLoop_cons, ih (i + 1)]
    simp [List.enumFrom]

theorem standardBase64_eq_wrapSpec (B : List Byte) :
    standardBase64 B = wrapSpec (encodeToString B) := by
  simp only [standardBase64, wrapSpec, List.enum, wrapLoop_enumFrom]

theorem wrapLoop_shift (l : List Byte) (i : Nat) :
    wrapLoop l (i + 76) [] = wrapLoop l i [] := by
  induction l generalizing i with
  | nil => simp [wrapLoop]
  | cons ch rest ih =>
    rw [wrapLoop_cons, wrapLoop_cons]
    have h : (i + 76 + 1) % 76 = (i + 1) % 76 := by omega
    have h2 : i + 76 + 1 = (i + 1) + 76 := by omega
    rw [h, h2, ih (i + 1)]

theorem wrapLoop_short (l : List Byte) (i : Nat) (h : i + l.length < 76) :
    wrapLoop l i [] = l := by
  induction l generalizing i with
  | nil => simp [wrapLoop]
  | cons ch rest ih =>
    simp only [List.length_cons] at h
    rw [wrapLoop_cons, ih (i + 1) (by omega)]
    have : (i + 1) % 76 ≠ 0 := by omega
    simp [this]

theorem wrapLoop_full (l rest : List Byte) (i : Nat) (h : i + l.length = 76) (hl : l ≠ []) :
    wrapLoop (l ++ rest) i [] = l ++ [nl] ++ wrapLoop rest 0 [] := by
  induction l generalizing i with
  | nil => exact absurd rfl hl
  | cons ch t ih =>
    simp only [List.length_cons] at h
    rw [List.cons_append, wrapLoop_cons]
    by_cases ht : t = []
    · subst ht
      simp only [List.length_nil] at h
      have h0 : (i + 1) % 76 = 0 := by omega
      have h1 : i + 1 = 0 + 76 := by omega
      rw [if_pos h0, h1, List.nil_append, wrapLoop_shift]
      simp
    · have hlen : 0 < t.length := List.length_pos.2 ht
      have h0 : (i + 1) % 76 ≠ 0 := by omega
      rw [if_neg h0, ih (i + 1) (by omega) ht]
      simp

theorem wrapLoop_lines (n : Nat) : ∀ e : List Byte, e.length ≤ n → nl ∉ e →
    ∃ (lines : List (List Byte)) (last : List Byte),
      wrapLoop e 0 [] = (lines.map (· ++ [nl])).flatten ++ last ∧
      (∀ l ∈ lines, l.length = 76 ∧ nl ∉ l) ∧ last.length < 76 ∧ nl ∉ last ∧
      lines.flatten ++ last = e := by
  induction n with
  | zero =>
    intro e he _
    have : e = [] := List.length_eq_zero.1 (by omega)
    subst this
    exact ⟨[], [], by simp [wrapLoop]⟩
  | succ n ih =>
    intro e he hnl
    by_cases hs : e.length < 76
    · exact ⟨[], e, by simp [wrapLoop_short e 0 (by omega)], by simp, hs, hnl, by simp⟩
    · have hsplit : e = e.take 76 ++ e.drop 76 := (List.take_append_drop 76 e).symm
      have htl : (e.take 76).length = 76 := by
        rw [List.length_take]; omega
      obtain ⟨lines, last, h1, h2, h3, h4, h5⟩ :=
        ih (e.drop 76) (by rw [List.length_drop]; omega)
          (fun h => hnl (List.mem_of_mem_drop h))
      refine ⟨e.take 76 :: lines, last, ?_, ?_, h3, h4, ?_⟩
      · have hne : e.take 76 ≠ [] := by
          intro h
          rw [h] at htl
          simp at htl
        conv_lhs => rw [hsplit]
        rw [wrapLoop_full _ _ 0 (by omega) hne, h1]
        simp
      · intro l hl
        rcases List.mem_cons.1 hl with rfl | hl
        · exact ⟨htl, fun h => hnl (List.mem_of_mem_take h)⟩
        · exact h2 l hl
      · rw [List.flatten_cons, List.append_assoc, h5, List.take_append_drop]

/-! ### The base64 alphabet -/

theorem encodeByte_ne_nl (i : Nat) : encodeByte i ≠ nl := by
  by_cases h : i < 64
  · interval_cases i <;> decide
  · unfold encodeByte
    rw [List.getD_eq_default _ _ (by
      have : encodeStd.length = 64 := by decide
      omega)]
    decide

theorem nl_not_mem_encodeToString (B : List Byte) : nl ∉ encodeToString B := by
  induction B using encodeToString.induct with
  | case1 a b c rest ih =>
    simp only [encodeToString, List.mem_cons, not_or]
    exact ⟨fun h => encodeByte_ne_nl _ h.symm, fun h => encodeByte_ne_nl _ h.symm,
      fun h => encodeByte_ne_nl _ h.symm, fun h => encodeByte_ne_nl _ h.symm, ih⟩
  | case2 a b =>
    simp only [encodeToString, List.mem_cons, not_or]
    exact ⟨fun h => encodeByte_ne_nl _ h.symm, fun h => encodeByte_ne_nl _ h.symm,
      fun h => encodeByte_ne_nl _ h.symm, by decide, by simp⟩
  | case3 a =>
    simp only [encodeToString, List.mem_cons, not_or]
    exact ⟨fun h => encodeByte_ne_nl _ h.symm, fun h => encodeByte_ne_nl _ h.symm,
      by decide, by decide, by simp⟩
  | case4 => simp [encodeToString]

/-- C1: `standardBase64 B` is the base64 encoding `e` of `B` with a newline
after each character at a 1-indexed position 76, 152, 228, ... and one final
newline. It is therefore a sequence of lines of exactly 76 characters, each
closed by a newline, followed by a last line of fewer than 76 characters
(possibly none) and its newline; the lines put together are `e`; the text
ends with a newline; and for the empty input it is the single newline. -/
theorem standardBase64_lines (B : List Byte) :
    standardBase64 B = wrapSpec (encodeToString B) ∧
    (∃ (lines : List (List Byte)) (last : List Byte),
      standardBase64 B = (lines.map (· ++ [nl])).flatten ++ (last ++ [nl]) ∧
      (∀ l ∈ lines, l.length = 76 ∧ nl ∉ l) ∧ last.length < 76 ∧ nl ∉ last ∧
      lines.flatten ++ last = encodeToString B) ∧
    (standardBase64 B).getLast? = some nl ∧
    standardBase64 [] = [nl] := by
  refine ⟨standardBase64_eq_wrapSpec B, ?_, ?_, by decide⟩
  · obtain ⟨lines, last, h1, h2, h3, h4, h5⟩ :=
      wrapLoop_lines _ (encodeToString B) (Nat.le_refl _) (nl_not_mem_encodeToString B)
    refine ⟨lines, last, ?_, h2, h3, h4, h5⟩
    simp only [standardBase64]
    rw [h1, List.append_assoc]
  · simp [standardBase64]

/-! ### The length of the encoding, and the 76-character case -/

theorem encodeToString_length (B : List Byte) :
    (encodeToString B).length = 4 * ((B.length + 2) / 3) := by
  induction B using encodeToString.induct with
  | case1 a b c rest ih =>
    simp only [encodeToString, List.length_cons, ih]
    omega
  | case2 a b => simp [encodeToString]
  | case3 a => simp [encodeToString]
  | case4 => simp [encodeToString]

theorem wrapLoop_exact (e : List Byte) (h : e.length = 76) : wrapLoop e 0 [] = e ++ [nl] := by
  have hne : e ≠ [] := by
    intro h0
    rw [h0] at h
    simp at h
  have := wrapLoop_full e [] 0 (by omega) hne
  simpa [wrapLoop] using this

/-- C3: when the base64 encoding `e` of `B` is exactly 76 characters long, as
it is for every `B` of 57 bytes, `standardBase64 B` is `e` followed by two
newlines, 78 bytes in all. -/
theorem standardBase64_two_newlines (B : List Byte)
    (h : B.length = 57 ∨ (encodeToString B).length = 76) :
    (encodeToString B).length = 76 ∧
    standardBase64 B = encodeToString B ++ [nl, nl] ∧
    (standardBase64 B).length = 78 := by
  have he : (encodeToString B).length = 76 := by
    rcases h with h | h
    · rw [encodeToString_length, h]
    · exact h
  have hs : standardBase64 B = encodeToString B ++ [nl, nl] := by
    simp only [standardBase64]
    rw [wrapLoop_exact _ he]
    simp
  refine ⟨he, hs, ?_⟩
  rw [hs, List.length_append, he]
  rfl

/-- A 57-byte input: its canonical text is the 76 characters of its encoding
and two newlines. -/
theorem standardBase64_two_newlines_witness :
    (List.replicate 57 (7 : Byte)).length = 57 ∧
    standardBase64 (List.replicate 57 (7 : Byte)) =
      str "BwcHBwcHBwcHBwcHBwcHBwcHBwcHBwcHBwcHBwcHBwcHBwcHBwcHBwcHBwcHBwcHBwcHBwcHBwcH\n\n" :=
  ⟨by decide,
    (standardBase64_two_newlines (List.replicate 57 (7 : Byte)) (Or.inl (by decide))).2.1.trans
      (by decide)⟩

/-! ### Injectivity -/

theorem sextet_zero (x : Nat) : x &&& 0x3F = x % 64 :=
  Nat.and_pow_two_sub_one_eq_mod _ 6

theorem val3 (a b c : Nat) (hb : b < 256) (hc : c < 256) :
    a <<< 16 ||| b <<< 8 ||| c = a * 65536 + b * 256 + c := by
  have h1 : 2 ^ 16 * a ||| 2 ^ 8 * b = 2 ^ 16 * a + 2 ^ 8 * b :=
    (Nat.mul_add_lt_is_or (by omega : 2 ^ 8 * b < 2 ^ 16) a).symm
  have h2 : 2 ^ 8 * (2 ^ 8 * a + b) ||| c = 2 ^ 8 * (2 ^ 8 * a + b) + c :=
    (Nat.mul_add_lt_is_or (by omega : c < 2 ^ 8) _).symm
  rw [Nat.shiftLeft_eq, Nat.shiftLeft_eq, Nat.mul_comm a, Nat.mul_comm b, h1]
  have h3 : 2 ^ 16 * a + 2 ^ 8 * b = 2 ^ 8 * (2 ^ 8 * a + b) := by omega
  rw [h3, h2]

theorem val2 (a b : Nat) (hb : b < 256) : a <<< 16 ||| b <<< 8 = a * 65536 + b * 256 := by
  have := val3 a b 0 hb (by omega)
  simpa using this

theorem encodeToString_three (a b c : Byte) (rest : List Byte) :
    encodeToString (a :: b :: c :: rest) =
      encodeByte ((a.val * 65536 + b.val * 256 + c.val) / 2 ^ 18 % 64) ::
        encodeByte ((a.val * 65536 + b.val * 256 + c.val) / 2 ^ 12 % 64) ::
          encodeByte ((a.val * 65536 + b.val * 256 + c.val) / 2 ^ 6 % 64) ::
            encodeByte ((a.val * 65536 + b.val * 256 + c.val) % 64) ::
              encodeToString rest := by
  simp only [encodeToString, sextet_zero, Nat.shiftRight_eq_div_pow, val3 _ _ _ b.isLt c.isLt]

theorem encodeToString_two (a b : Byte) :
    encodeToString [a, b] =
      [encodeByte ((a.val * 65536 + b.val * 256) / 2 ^ 18 % 64),
        encodeByte ((a.val * 65536 + b.val * 256) / 2 ^ 12 % 64),
        encodeByte ((a.val * 65536 + b.val * 256) / 2 ^ 6 % 64), padChar] := by
  simp only [encodeToString, sextet_zero, Nat.shiftRight_eq_div_pow, val2 _ _ b.isLt]

theorem encodeToString_one (a : Byte) :
    encodeToString [a] =
      [encodeByte (a.val * 65536 / 2 ^ 18 % 64), encodeByte (a.val * 65536 / 2 ^ 12 % 64),
        padChar, padChar] := by
  simp only [encodeToString, sextet_zero, Nat.shiftRight_eq_div_pow, Nat.shiftLeft_eq]

theorem encodeByte_index (i : Nat) (h : i < 64) : encodeStd.indexOf (encodeByte i) = i := by
  interval_cases i <;> decide

theorem encodeByte_inj (i j : Nat) (hi : i < 64) (hj : j < 64)
    (h : encodeByte i = encodeByte j) : i = j := by
  rw [← encodeByte_index i hi, ← encodeByte_index j hj, h]

theorem encodeByte_ne_pad (i : Nat) (h : i < 64) : encodeByte i ≠ padChar := by
  interval_cases i <;> decide

theorem encodeToString_injective :
    ∀ B1 B2 : List Byte, encodeToString B1 = encodeToString B2 → B1 = B2 := by
  intro B1
  have m : ∀ x : Nat, x % 64 < 64 := fun x => Nat.mod_lt _ (by norm_num)
  induction B1 using encodeToString.induct with
  | case1 a b c rest ih =>
    intro B2 h
    rcases B2 with _ | ⟨a', _ | ⟨b', _ | ⟨c', rest'⟩⟩⟩
    · simp [encodeToString_three, encodeToString] at h
    · rw [encodeToString_three, encodeToString_one] at h
      simp only [List.cons.injEq] at h
      exact absurd h.2.2.1 (encodeByte_ne_pad _ (m _))
    · rw [encodeToString_three, encodeToString_two] at h
      simp only [List.cons.injEq] at h
      exact absurd h.2.2.2.1 (encodeByte_ne_pad _ (m _))
    · rw [encodeToString_three, encodeToString_three] at h
      simp only [List.cons.injEq] at h
      obtain ⟨h1, h2, h3, h4, h5⟩ := h
      have e1 := encodeByte_inj _ _ (m _) (m _) h1
      have e2 := encodeByte_inj _ _ (m _) (m _) h2
      have e3 := encodeByte_inj _ _ (m _) (m _) h3
      have e4 := encodeByte_inj _ _ (m _) (m _) h4
      have ha := a.isLt
      have hb := b.isLt
      have hc := c.isLt
      have ha' := a'.isLt
      have hb' := b'.isLt
      have hc' := c'.isLt
      have hv : a.val = a'.val ∧ b.val = b'.val ∧ c.val = c'.val := by omega
      rw [Fin.ext hv.1, Fin.ext hv.2.1, Fin.ext hv.2.2, ih rest' h5]
  | case2 a b =>
    intro B2 h
    rcases B2 with _ | ⟨a', _ | ⟨b', _ | ⟨c', rest'⟩⟩⟩
    · simp [encodeToString_two, encodeToString] at h
    · rw [encodeToString_two, encodeToString_one] at h
      simp only [List.cons.injEq] at h
      exact absurd h.2.2.1 (encodeByte_ne_pad _ (m _))
    · rw [encodeToString_two, encodeToString_two] at h
      simp only [List.cons.injEq] at h
      obtain ⟨h1, h2, h3, _⟩ := h
      have e1 := encodeByte_inj _ _ (m _) (m _) h1
      have e2 := encodeByte_inj _ _ (m _) (m _) h2
      have e3 := encodeByte_inj _ _ (m _) (m _) h3
      have ha := a.isLt
      have hb := b.isLt
      have ha' := a'.isLt
      have hb' := b'.isLt
      have hv : a.val = a'.val ∧ b.val = b'.val := by omega
      rw [Fin.ext hv.1, Fin.ext hv.2]
    · rw [encodeToString_two, encodeToString_three] at h
      simp only [List.cons.injEq] at h
      exact absurd h.2.2.2.1.symm (encodeByte_ne_pad _ (m _))
  | case3 a =>
    intro B2 h
    rcases B2 with _ | ⟨a', _ | ⟨b', _ | ⟨c', rest'⟩⟩⟩
    · simp [encodeToString_one, encodeToString] at h
    · rw [encodeToString_one, encodeToString_one] at h
      simp only [List.cons.injEq] at h
      obtain ⟨h1, h2, _⟩ := h
      have e1 := encodeByte_inj _ _ (m _) (m _) h1
      have e2 := encodeByte_inj _ _ (m _) (m _) h2
      have ha := a.isLt
      have ha' := a'.isLt
      have hv : a.val = a'.val := by omega
      rw [Fin.ext hv]
    · rw [encodeToString_one, encodeToString_two] at h
      simp only [List.cons.injEq] at h
      exact absurd h.2.2.1.symm (encodeByte_ne_pad _ (m _))
    · rw [encodeToString_one, encodeToString_three] at h
      simp only [List.cons.injEq] at h
      exact absurd h.2.2.1.symm (encodeByte_ne_pad _ (m _))
  | case4 =>
    intro B2 h
    rcases B2 with _ | ⟨a', _ | ⟨b', _ | ⟨c', rest'⟩⟩⟩
    · rfl
    · simp [encodeToString_one, encodeToString] at h
    · simp [encodeToString_two, encodeToString] at h
    · simp [encodeToString_three, encodeToString] at h

theorem filter_wrapLoop (l : List Byte) (i : Nat) :
    (wrapLoop l i []).filter (fun x => x != nl) = l.filter (fun x => x != nl) := by
  induction l generalizing i with
  | nil => simp [wrapLoop]
  | cons ch rest ih =>
    rw [wrapLoop_cons, List.filter_append, ih (i + 1)]
    split <;> simp [List.filter_cons] <;> split <;> simp

/-- The canonical text without its newlines is the base64 encoding. -/
theorem filter_standardBase64 (B : List Byte) :
    (standardBase64 B).filter (fun x => x != nl) = encodeToString B := by
  simp only [standardBase64, List.filter_append, filter_wrapLoop]
  have h : (encodeToString B).filter (fun x => x != nl) = encodeToString B := by
    rw [List.filter_eq_self]
    intro x hx
    simp only [bne_iff_ne, ne_eq]
    rintro rfl
    exact nl_not_mem_encodeToString B hx
  rw [h]
  simp

/-- C9: `standardBase64` is injective: inputs that differ (for one, inputs of
the same length that differ in a byte) have different canonical texts, and
equal canonical texts come from equal inputs. -/
theorem standardBase64_injective (B1 B2 : List Byte) :
    (B1 ≠ B2 → standardBase64 B1 ≠ standardBase64 B2) ∧
    (standardBase64 B1 = standardBase64 B2 → B1 = B2) := by
  have key : standardBase64 B1 = standardBase64 B2 → B1 = B2 := by
    intro h
    apply encodeToString_injective
    rw [← filter_standardBase64 B1, ← filter_standardBase64 B2, h]
  exact ⟨fun hne h => hne (key h), key⟩

/-! ## Theorems: the fingerprint rendering -/

theorem fmix32_lt (h : Nat) : fmix32 h < 2 ^ 32 := by
  unfold fmix32
  exact Nat.mod_lt _ (by norm_num)

theorem sum32_lt (raw : List Byte) : sum32 raw < 2 ^ 32 := by
  unfold sum32
  exact fmix32_lt _

theorem int32_of_lt (x : Nat) (h : x < 2 ^ 31) : int32 x = (x : Int) := by
  unfold int32
  omega

theorem int32_of_ge (x : Nat) (h1 : 2 ^ 31 ≤ x) (h2 : x < 2 ^ 32) :
    int32 x = (x : Int) - 2 ^ 32 := by
  unfold int32
  omega

theorem int32_range (x : Nat) : -2 ^ 31 ≤ int32 x ∧ int32 x ≤ 2 ^ 31 - 1 := by
  unfold int32
  omega

theorem digitByte_digitChar (d : Nat) (h : d < 10) : byteOfChar (Nat.digitChar d) = digitByte d := by
  interval_cases d <;> decide

theorem fmtDecimal_toDigitsCore (fuel : Nat) : ∀ (u : Nat) (ds : List Char), u ≤ fuel →
    fmtDecimal fuel u (ds.map byteOfChar) =
      (Nat.toDigitsCore 10 (fuel + 1) u ds).map byteOfChar := by
  induction fuel with
  | zero =>
    intro u ds hu
    have h0 : u = 0 := by omega
    subst h0
    simp [fmtDecimal, Nat.toDigitsCore]
    decide
  | succ f ih =>
    intro u ds hu
    rw [fmtDecimal, Nat.toDigitsCore]
    by_cases h10 : u ≥ 10
    · have hq : u / 10 ≠ 0 := by omega
      have hm : u - u / 10 * 10 = u % 10 := by omega
      simp only [h10, hq, if_true, if_false, hm]
      rw [← digitByte_digitChar _ (Nat.mod_lt _ (by norm_num)), ← List.map_cons]
      exact ih (u / 10) _ (by omega)
    · have hq : u / 10 = 0 := by omega
      have hm : u % 10 = u := by omega
      simp only [h10, hq, if_true, if_false, hm, List.map_cons]
      rw [digitByte_digitChar _ (by omega)]

theorem fmtDecimal_eq (u : Nat) : fmtDecimal u u [] = str (toString u) := by
  have h := fmtDecimal_toDigitsCore u u [] (Nat.le_refl _)
  simp only [List.map_nil] at h
  rw [h]
  rfl

/-- The rendering of `%d` is the base-10 string of the integer. -/
theorem sprintfD_eq_decimal (v : Int) : sprintfD v = decimal v := by
  unfold sprintfD decimal
  cases v with
  | ofNat m =>
    have h : ¬ (Int.ofNat m < 0) := by
      simp
    simp only [h, decide_False, Int.natAbs_ofNat, fmtDecimal_eq]
    rfl
  | negSucc m =>
    have h : Int.negSucc m < 0 := Int.negSucc_lt_zero m
    simp only [h, decide_True, Int.natAbs_negSucc, fmtDecimal_eq]
    rfl

theorem isDigit_digitByte (d : Nat) (h : d < 10) : isDigit (digitByte d) = true := by
  interval_cases d <;> decide

theorem fmtDecimal_digits (fuel : Nat) : ∀ (u : Nat) (buf : List Byte), u ≤ fuel →
    ∀ x ∈ fmtDecimal fuel u buf, isDigit x = true ∨ x ∈ buf := by
  induction fuel with
  | zero =>
    intro u buf hu x hx
    have h0 : u = 0 := by omega
    subst h0
    simp only [fmtDecimal, List.mem_cons] at hx
    rcases hx with rfl | hx
    · exact Or.inl (by decide)
    · exact Or.inr hx
  | succ f ih =>
    intro u buf hu x hx
    rw [fmtDecimal] at hx
    by_cases h10 : u ≥ 10
    · simp only [h10, if_true] at hx
      rcases ih (u / 10) _ (by omega) x hx with h | h
      · exact Or.inl h
      · rcases List.mem_cons.1 h with rfl | h
        · exact Or.inl (isDigit_digitByte _ (by omega))
        · exact Or.inr h
    · simp only [h10, if_false, List.mem_cons] at hx
      rcases hx with rfl | hx
      · exact Or.inl (isDigit_digitByte _ (by omega))
      · exact Or.inr hx

theorem fmtDecimal_ne_nil (fuel u : Nat) (buf : List Byte) : fmtDecimal fuel u buf ≠ [] := by
  induction fuel generalizing u buf with
  | zero => simp [fmtDecimal]
  | succ f ih =>
    rw [fmtDecimal]
    split
    · exact ih _ _
    · simp

theorem all_isDigit_fmtDecimal (u : Nat) : (fmtDecimal u u []).all isDigit = true := by
  rw [List.all_eq_true]
  intro x hx
  rcases fmtDecimal_digits u u [] (Nat.le_refl _) x hx with h | h
  · exact h
  · simp at h

/-- Every text `fmt.Sprintf("%d", v)` writes is an optional `-` followed by
decimal digits. -/
theorem isSignedDecimal_sprintfD (v : Int) : isSignedDecimal (sprintfD v) = true := by
  unfold sprintfD
  have hall := all_isDigit_fmtDecimal v.natAbs
  have hne := fmtDecimal_ne_nil v.natAbs v.natAbs []
  by_cases hv : v < 0
  · simp only [hv, decide_True, if_true, isSignedDecimal, Bool.and_eq_true, Bool.not_eq_true']
    exact ⟨by simpa [List.isEmpty_iff] using hne, hall⟩
  · simp only [hv, decide_False, Bool.false_eq_true, if_false]
    cases hl : fmtDecimal v.natAbs v.natAbs [] with
    | nil => exact absurd hl hne
    | cons c t =>
      rw [hl] at hall
      have hc : isDigit c = true := by
        simp only [List.all_cons, Bool.and_eq_true] at hall
        exact hall.1
      have hm : c ≠ byteOfChar '-' := by
        rintro rfl
        revert hc
        decide
      simp only [isSignedDecimal, hm, if_false]
      exact hall

/-- Every fingerprint `mmh3Hash32` returns has the shape of a signed decimal. -/
theorem isSignedDecimal_mmh3Hash32 (raw : List Byte) :
    isSignedDecimal (mmh3Hash32 raw) = true :=
  isSignedDecimal_sprintfD _

theorem head_fmtDecimal_ne_minus (u : Nat) :
    (fmtDecimal u u []).head? ≠ some (byteOfChar '-') := by
  have hall := all_isDigit_fmtDecimal u
  cases hl : fmtDecimal u u [] with
  | nil => simp
  | cons c t =>
    rw [hl] at hall
    simp only [List.all_cons, Bool.and_eq_true] at hall
    simp only [List.head?_cons, ne_eq, Option.some.injEq]
    rintro rfl
    exact absurd hall.1 (by decide)

/-- The text of `%d` starts with `-` exactly for a negative integer. -/
theorem head_sprintfD (v : Int) : (sprintfD v).head? = some (byteOfChar '-') ↔ v < 0 := by
  unfold sprintfD
  by_cases hv : v < 0
  · simp [hv]
  · simp only [hv, decide_False, Bool.false_eq_true, if_false, iff_false]
    exact head_fmtDecimal_ne_minus _

/-- C2: with `h = sum32 raw` the unsigned 32-bit MurmurHash3 of `raw`,
`mmh3Hash32 raw` is the base-10 string of `h` when `h < 2 ^ 31` and of
`h - 2 ^ 32` otherwise; the value rendered lies in `[-2 ^ 31, 2 ^ 31 - 1]` and
is negative, its text starting with `-`, exactly when `h ≥ 2 ^ 31`. -/
theorem mmh3Hash32_signed (raw : List Byte) :
    sum32 raw < 2 ^ 32 ∧
    mmh3Hash32 raw =
      (if sum32 raw < 2 ^ 31 then decimal (sum32 raw : Int)
        else decimal ((sum32 raw : Int) - 2 ^ 32)) ∧
    mmh3Hash32 raw = decimal (int32 (sum32 raw)) ∧
    -2 ^ 31 ≤ int32 (sum32 raw) ∧ int32 (sum32 raw) ≤ 2 ^ 31 - 1 ∧
    (int32 (sum32 raw) < 0 ↔ 2 ^ 31 ≤ sum32 raw) ∧
    ((mmh3Hash32 raw).head? = some (byteOfChar '-') ↔ 2 ^ 31 ≤ sum32 raw) := by
  have hlt := sum32_lt raw
  have hd : mmh3Hash32 raw = decimal (int32 (sum32 raw)) := sprintfD_eq_decimal _
  have hneg : int32 (sum32 raw) < 0 ↔ 2 ^ 31 ≤ sum32 raw := by
    by_cases h : sum32 raw < 2 ^ 31
    · rw [int32_of_lt _ h]
      omega
    · rw [int32_of_ge _ (by omega) hlt]
      omega
  refine ⟨hlt, ?_, hd, (int32_range _).1, (int32_range _).2, ?_,
    (head_sprintfD _).trans hneg⟩
  · by_cases h : sum32 raw < 2 ^ 31
    · rw [if_pos h, hd, int32_of_lt _ h]
    · rw [if_neg h, hd, int32_of_ge _ (by omega) hlt]
  · by_cases h : sum32 raw < 2 ^ 31
    · rw [int32_of_lt _ h]
      omega
    · rw [int32_of_ge _ (by omega) hlt]
      omega

/-! ## Theorems: the fofa link -/

theorem encodeByte_low (i : Nat) (h : i < 62) :
    encodeByte i ≠ byteOfChar '+' ∧ encodeByte i ≠ byteOfChar '/' := by
  interval_cases i <;> decide

theorem encodeToString_low (B : List Byte) (h : ∀ x ∈ B, x.val < 62) :
    ∀ y ∈ encodeToString B, y ≠ byteOfChar '+' ∧ y ≠ byteOfChar '/' := by
  induction B using encodeToString.induct with
  | case1 a b c rest ih =>
    have ha : a.val < 62 := h a (by simp)
    have hb : b.val < 62 := h b (by simp)
    have hc : c.val < 62 := h c (by simp)
    have hr : ∀ x ∈ rest, x.val < 62 := fun x hx => h x (by simp [hx])
    intro y hy
    rw [encodeToString_three] at hy
    simp only [List.mem_cons] at hy
    rcases hy with rfl | rfl | rfl | rfl | hy
    · exact encodeByte_low _ (by omega)
    · exact encodeByte_low _ (by omega)
    · exact encodeByte_low _ (by omega)
    · exact encodeByte_low _ (by omega)
    · exact ih hr y hy
  | case2 a b =>
    have ha : a.val < 62 := h a (by simp)
    have hb : b.val < 62 := h b (by simp)
    intro y hy
    rw [encodeToString_two] at hy
    simp only [List.mem_cons, List.mem_nil_iff, or_false] at hy
    rcases hy with rfl | rfl | rfl | rfl
    · exact encodeByte_low _ (by omega)
    · exact encodeByte_low _ (by omega)
    · exact encodeByte_low _ (by omega)
    · decide
  | case3 a =>
    have ha : a.val < 62 := h a (by simp)
    intro y hy
    rw [encodeToString_one] at hy
    simp only [List.mem_cons, List.mem_nil_iff, or_false] at hy
    rcases hy with rfl | rfl | rfl | rfl
    · exact encodeByte_low _ (by omega)
    · exact encodeByte_low _ (by omega)
    · decide
    · decide
  | case4 =>
    intro y hy
    simp [encodeToString] at hy

theorem isDigit_low (x : Byte) (h : isDigit x = true) : x.val < 62 := by
  simp only [isDigit, Bool.and_eq_true, decide_eq_true_eq] at h
  omega

theorem isSignedDecimal_low (H : List Byte) (h : isSignedDecimal H = true) :
    ∀ x ∈ H, x.val < 62 := by
  cases H with
  | nil => simp
  | cons c t =>
    simp only [isSignedDecimal] at h
    by_cases hc : c = byteOfChar '-'
    · simp only [hc, if_true, Bool.and_eq_true, List.all_eq_true] at h
      intro x hx
      rcases List.mem_cons.1 hx with rfl | hx
      · rw [hc]
        decide
      · exact isDigit_low x (h.2 x hx)
    · simp only [hc, if_false, List.all_eq_true] at h
      intro x hx
      exact isDigit_low x (h x hx)

theorem qbase64_eq (H : List Byte) :
    qbase64 H = str "aWNvbl9oYXNo" ++ encodeToString (byteOfChar '=' :: H) := by
  unfold qbase64
  have h : str "icon_hash=" ++ H =
      byteOfChar 'i' :: byteOfChar 'c' :: byteOfChar 'o' :: byteOfChar 'n' ::
        byteOfChar '_' :: byteOfChar 'h' :: byteOfChar 'a' :: byteOfChar 's' ::
          byteOfChar 'h' :: byteOfChar '=' :: H := rfl
  rw [h]
  simp only [encodeToString]
  rfl

/-- C10: for a fingerprint `H` that is an optional `-` followed by decimal
digits, the `qbase64` segment of the fofa link, the base64 encoding of
`icon_hash=` followed by `H`, contains neither `+` nor `/`; the segment is the
end of the link line that `output` writes in its non-silent fofa report. -/
theorem qbase64_no_plus_slash (H : List Byte) (h : isSignedDecimal H = true) :
    byteOfChar '+' ∉ qbase64 H ∧ byteOfChar '/' ∉ qbase64 H ∧
    (∀ config : Config, config.Silent = false → config.Fofa = true →
      (output H config).1 =
        str "FOFA:\n" ++ (str "  icon_hash=\"" ++ H ++ str "\"\n") ++
          (str "  link: https://fofa.info/result?qbase64=" ++ qbase64 H ++ [nl])) := by
  have hlow : ∀ x ∈ byteOfChar '=' :: H, x.val < 62 := by
    intro x hx
    rcases List.mem_cons.1 hx with rfl | hx
    · decide
    · exact isSignedDecimal_low H h x hx
  have key : ∀ y ∈ qbase64 H, y ≠ byteOfChar '+' ∧ y ≠ byteOfChar '/' := by
    intro y hy
    rw [qbase64_eq, List.mem_append] at hy
    rcases hy with hy | hy
    · revert y
      decide
    · exact encodeToString_low _ hlow y hy
  refine ⟨fun hm => (key _ hm).1 rfl, fun hm => (key _ hm).2 rfl, ?_⟩
  intro config hs hf
  simp [output, hs, hf, str_nl]

/-- The fingerprint `-1167338989`: its segment is `aWNvbl9oYXNoPS0xMTY3MzM4OTg5`. -/
theorem qbase64_no_plus_slash_witness :
    isSignedDecimal (str "-1167338989") = true ∧
    qbase64 (str "-1167338989") = str "aWNvbl9oYXNoPS0xMTY3MzM4OTg5" ∧
    byteOfChar '+' ∉ qbase64 (str "-1167338989") ∧
    byteOfChar '/' ∉ qbase64 (str "-1167338989") :=
  ⟨by decide, by decide,
    (qbase64_no_plus_slash (str "-1167338989") (by decide)).1,
    (qbase64_no_plus_slash (str "-1167338989") (by decide)).2.1⟩

/-! ## Test vectors -/

/-- Published MurmurHash3 x86_32 values for seed 0. -/
theorem sum32_vectors :
    sum32 [] = 0 ∧ sum32 (str "hello") = 0x248bfa47 ∧ sum32 (str "test") = 0xba6bd213 ∧
    sum32 (str "Hello, world!") = 0xc0363e43 ∧
    sum32 (str "The quick brown fox jumps over the lazy dog") = 0x2e4ff723 := by
  decide

theorem mmh3Hash32_vectors :
    mmh3Hash32 (str "test") = str "-1167338989" ∧ mmh3Hash32 (str "hello") = str "613153351" ∧
    sprintfD 0 = str "0" := by
  decide

theorem encodeToString_vectors :
    encodeToString (str "Man") = str "TWFu" ∧ encodeToString (str "Ma") = str "TWE=" ∧
    encodeToString (str "M") = str "TQ==" ∧
    qbase64 (str "708578229") = str "aWNvbl9oYXNoPTcwODU3ODIyOQ==" := by
  decide

/-- A 58-byte input: one full line of 76 characters and a last line of four. -/
theorem standardBase64_vector :
    standardBase64 (List.replicate 58 (7 : Byte)) =
      str "BwcHBwcHBwcHBwcHBwcHBwcHBwcHBwcHBwcHBwcHBwcHBwcHBwcHBwcHBwcHBwcHBwcHBwcHBwcH\nBw==\n" := by
  decide

/-- A refused connection: the error is printed and the exit code is 1. -/
theorem main_refused :
    (main { calmWorld [] with clientDo := fun _ _ => .error (str "connection refused") }
        (urlConfig (str "http://example.com"))).exitCode = 1 ∧
    (main { calmWorld [] with clientDo := fun _ _ => .error (str "connection refused") }
        (urlConfig (str "http://example.com"))).printed =
      [.error (str "connection refused\n")] := by
  decide

/-- No URL and no file: usage text, examples and exit code 0. -/
theorem main_usage :
    (main (calmWorld []) (urlConfig [])).exitCode = 0 ∧
    (main (calmWorld []) (urlConfig [])).printed =
      [.usage (str "Usage of ifavicon:\n"), .examples examplesText] := by
  decide

end Ifavicon
